import Mathlib

/-!
Verification of the word-count MapReduce pipeline in `map_reducer.py`.

Python strings are embedded as `List Char`.  The pipeline functions
(`remove_punctuation`, `map_function`, `shuffle_function`, `reduce_function`,
`map_reduce`, `visualize_top_words`, `get_text`) keep their source names.
Python dicts (insertion-ordered, unique keys) are embedded as association
lists built in insertion order.
-/

namespace MapReducer

/-- The 32 characters of Python's `string.punctuation`: the ASCII ranges
33..47, 58..64, 91..96 and 123..126. -/
def isPyPunct (c : Char) : Bool :=
  let n := c.toNat
  (33 ≤ n && n ≤ 47) || (58 ≤ n && n ≤ 64) || (91 ≤ n && n ≤ 96) ||
    (123 ≤ n && n ≤ 126)

/-- The characters Python's `str.split()` (with no separator) treats as
whitespace: the Unicode whitespace set used by `str.isspace`. -/
def isPySpace (c : Char) : Bool :=
  let n := c.toNat
  (9 ≤ n && n ≤ 13) || (28 ≤ n && n ≤ 32) || n == 133 || n == 160 ||
    n == 5760 || (8192 ≤ n && n ≤ 8202) || n == 8232 || n == 8233 ||
    n == 8239 || n == 8287 || n == 12288

/-- `text.translate(str.maketrans("", "", string.punctuation))`: delete every
punctuation character, keep everything else. -/
def remove_punctuation (text : List Char) : List Char :=
  text.filter (fun c => !(isPyPunct c))

/-- Helper for `str.split()`: accumulates the current (reversed) run of
non-whitespace characters and emits it at each whitespace boundary. -/
def splitWsAux : List Char → List Char → List (List Char)
  | [], acc => if acc = [] then [] else [acc.reverse]
  | c :: cs, acc =>
    if isPySpace c then
      (if acc = [] then [] else [acc.reverse]) ++ splitWsAux cs []
    else
      splitWsAux cs (c :: acc)

/-- Python's `text.split()` with no argument: split on runs of whitespace,
producing no empty tokens. -/
def splitWs (text : List Char) : List (List Char) :=
  splitWsAux text []

/-- `map_function(word)`: `return word.lower(), 1`. -/
def map_function (word : List Char) : List Char × Nat :=
  (word.map Char.toLower, 1)

/-- One iteration of the `shuffle_function` loop body
`shuffled[key].append(value)` on an insertion-ordered association list:
append `value` to the list at `key`, creating `(key, [value])` at the end
when `key` is new (the `defaultdict(list)` behaviour). -/
def appendAt (acc : List (List Char × List Nat)) (key : List Char)
    (value : Nat) : List (List Char × List Nat) :=
  match acc with
  | [] => [(key, [value])]
  | (k, vs) :: rest =>
    if k = key then (k, vs ++ [value]) :: rest
    else (k, vs) :: appendAt rest key value

/-- `shuffle_function(mapped_values)`: group the mapped pairs by key with a
single left-to-right pass, returning the groups in key insertion order. -/
def shuffle_function (mapped_values : List (List Char × Nat)) :
    List (List Char × List Nat) :=
  mapped_values.foldl (fun acc kv => appendAt acc kv.1 kv.2) []

/-- `reduce_function(item)`: `key, values = item; return key, sum(values)`. -/
def reduce_function (item : List Char × List Nat) : List Char × Nat :=
  (item.1, item.2.sum)

/-- `map_reduce(text)`: strip punctuation, split into words, map each word to
`(word.lower(), 1)` (the thread pool's `executor.map` preserves input
order), group with `shuffle_function`, and reduce each group to its total.
The resulting `dict` has one entry per distinct key, in insertion order. -/
def map_reduce (text : List Char) : List (List Char × Nat) :=
  let words := splitWs (remove_punctuation text)
  let mapped_values := words.map map_function
  let shuffled_values := shuffle_function mapped_values
  shuffled_values.map reduce_function

/-- Lookup in an insertion-ordered association list (Python `dict` access). -/
def assoc {α : Type} (key : List Char) : List (List Char × α) → Option α
  | [] => none
  | (k, v) :: rest => if k = key then some v else assoc key rest

/-- The values contributed under `key` by a list of mapped pairs, in order. -/
def valuesOf (key : List Char) (l : List (List Char × Nat)) : List Nat :=
  (l.filter (fun kv => kv.1 = key)).map Prod.snd

/-- Combines the group already stored for a key with further values arriving
for that key: used to state the `shuffle_function` fold invariant. -/
def mergeOpt : Option (List Nat) → List Nat → Option (List Nat)
  | none, vs => if vs = [] then none else some vs
  | some u, vs => some (u ++ vs)

/-- Total of all counts held in a grouped structure. -/
def sumVals (gs : List (List Char × List Nat)) : Nat :=
  (gs.map (fun g => g.2.sum)).sum

/-- Word counts computed from an already-normalized token sequence: each token
is paired with 1 (no further lowercasing), then grouped and reduced.  Used to
state that `map_reduce` equals counting over per-token lowercased words. -/
def word_counts_of (tokens : List (List Char)) : List (List Char × Nat) :=
  (shuffle_function (tokens.map (fun w => (w, 1)))).map reduce_function

/-- The ranking line of `visualize_top_words`:
`sorted(word_counts.items(), key=lambda item: item[1], reverse=True)[:top_n]`.
Python's sort is a stable merge sort; `reverse=True` orders by count
descending, and slicing truncates to the first `top_n` entries. -/
def top_words (word_counts : List (List Char × Nat)) (top_n : Nat) :
    List (List Char × Nat) :=
  (word_counts.mergeSort (fun a b => decide (b.2 ≤ a.2))).take top_n

/-- `visualize_top_words(word_counts, top_n)` up to the data handed to the
plotting calls.  The line `words, counts = zip(*sorted_words)` unpacks two
values from `zip`; when `sorted_words` is empty, `zip()` yields no tuples at
all and the 2-name unpacking raises
`ValueError: not enough values to unpack`, modelled as `Except.error`.
Otherwise it produces the label tuple and the count tuple (`List.unzip`). -/
def visualize_top_words (word_counts : List (List Char × Nat))
    (top_n : Nat) : Except String (List (List Char) × List Nat) :=
  let sorted_words := top_words word_counts top_n
  match sorted_words with
  | [] => Except.error "ValueError: not enough values to unpack"
  | ws => Except.ok ws.unzip

/-- Outcome of the single `requests.get(url)` call: either an HTTP response
with a status code and a body, or a raised `requests.RequestException`
(connection error, timeout, ...). -/
inductive HttpOutcome where
  | response (status : Nat) (body : List Char)
  | requestError (message : String)

/-- `response.raise_for_status()` raises `HTTPError` exactly for client-error
and server-error status codes, 400..599. -/
def raisesForStatus (status : Nat) : Bool :=
  400 ≤ status && status < 600

/-- `get_text(url)`: returns the response text on success; on any
`requests.RequestException` (including the `HTTPError` raised by
`raise_for_status` for a non-success status) it logs the error and returns
`None`.  No retry is attempted. -/
def get_text (outcome : HttpOutcome) : Option (List Char) :=
  match outcome with
  | HttpOutcome.response status body =>
    if raisesForStatus status then none else some body
  | HttpOutcome.requestError _ => none

/-- Result of the `__main__` block: either the pipeline ran and the chart was
attempted, or the retrieval-failure message was logged and nothing else ran. -/
inductive MainOutcome where
  | visualized (word_counts : List (List Char × Nat))
      (chart : Except String (List (List Char) × List Nat))
  | retrievalFailureLogged

/-- The `__main__` block: fetch, then `if text:` — Python truthiness, false
both for `None` and for the empty string — runs `map_reduce` and
`visualize_top_words(word_counts, top_n=11)`; otherwise logs
"Failed to execute MapReduce due to text retrieval failure." and ends. -/
def main_block (outcome : HttpOutcome) : MainOutcome :=
  match get_text outcome with
  | some text =>
    if text = [] then MainOutcome.retrievalFailureLogged
    else MainOutcome.visualized (map_reduce text)
      (visualize_top_words (map_reduce text) 11)
  | none => MainOutcome.retrievalFailureLogged

/-- The number of case-insensitive occurrences of `k` as a token of `text`
after punctuation stripping and whitespace splitting. -/
def countOccurs (text : List Char) (k : List Char) : Nat :=
  ((splitWs (remove_punctuation text)).filter
    (fun w => w.map Char.toLower = k)).length

/-! ### Lemmas about the grouping fold -/

theorem mergeOpt_nil (o : Option (List Nat)) : mergeOpt o [] = o := by
  cases o <;> simp [mergeOpt]

theorem assoc_appendAt (acc : List (List Char × List Nat)) (k q : List Char)
    (v : Nat) :
    assoc q (appendAt acc k v) =
      if k = q then some ((assoc q acc).getD [] ++ [v]) else assoc q acc := by
  induction acc with
  | nil =>
    by_cases hkq : k = q <;> simp [appendAt, assoc, hkq]
  | cons hd tl ih =>
    obtain ⟨k', vs⟩ := hd
    by_cases hk'k : k' = k
    · subst hk'k
      by_cases hkq : k' = q <;> simp [appendAt, assoc, hkq]
    · by_cases hk'q : k' = q
      · have hkq : ¬ (k = q) := fun h => hk'k (hk'q.trans h.symm)
        have hqk : ¬ (q = k) := fun h => hkq h.symm
        simp [appendAt, assoc, hk'k, hk'q, hkq, hqk]
      · simp [appendAt, assoc, hk'k, hk'q, ih]

theorem keys_appendAt (acc : List (List Char × List Nat)) (k : List Char)
    (v : Nat) :
    (appendAt acc k v).map Prod.fst =
      if k ∈ acc.map Prod.fst then acc.map Prod.fst
      else acc.map Prod.fst ++ [k] := by
  induction acc with
  | nil => simp [appendAt]
  | cons hd tl ih =>
    obtain ⟨k', vs⟩ := hd
    by_cases hk'k : k' = k
    · subst hk'k
      simp [appendAt]
    · have : ¬ (k = k') := fun h => hk'k h.symm
      by_cases hmem : k ∈ tl.map Prod.fst <;>
        simp [appendAt, hk'k, ih, hmem, this]

theorem keysNodup_appendAt (acc : List (List Char × List Nat))
    (k : List Char) (v : Nat) (h : (acc.map Prod.fst).Nodup) :
    ((appendAt acc k v).map Prod.fst).Nodup := by
  rw [keys_appendAt]
  by_cases hmem : k ∈ acc.map Prod.fst
  · simpa [hmem] using h
  · simp only [hmem, if_false]
    exact List.Nodup.append h (List.nodup_singleton k) (by simpa using hmem)

theorem assoc_shuffle_foldl (l : List (List Char × Nat))
    (acc : List (List Char × List Nat)) (q : List Char) :
    assoc q (l.foldl (fun acc kv => appendAt acc kv.1 kv.2) acc) =
      mergeOpt (assoc q acc) (valuesOf q l) := by
  induction l generalizing acc with
  | nil => simp [valuesOf, mergeOpt_nil]
  | cons hd tl ih =>
    obtain ⟨k, v⟩ := hd
    rw [List.foldl_cons, ih]
    by_cases hkq : k = q
    · subst hkq
      have hvals : valuesOf k ((k, v) :: tl) = v :: valuesOf k tl := by
        simp [valuesOf]
      rw [hvals, assoc_appendAt]
      cases hacc : assoc k acc with
      | none => simp [mergeOpt]
      | some u => simp [mergeOpt]
    · have hvals : valuesOf q ((k, v) :: tl) = valuesOf q tl := by
        simp [valuesOf, hkq]
      rw [hvals, assoc_appendAt, if_neg hkq]

theorem assoc_shuffle (l : List (List Char × Nat)) (q : List Char) :
    assoc q (shuffle_function l) =
      if valuesOf q l = [] then none else some (valuesOf q l) := by
  rw [shuffle_function, assoc_shuffle_foldl]
  simp [assoc, mergeOpt]

theorem keysNodup_shuffle_foldl (l : List (List Char × Nat))
    (acc : List (List Char × List Nat)) (h : (acc.map Prod.fst).Nodup) :
    (((l.foldl (fun acc kv => appendAt acc kv.1 kv.2) acc)).map
      Prod.fst).Nodup := by
  induction l generalizing acc with
  | nil => simpa using h
  | cons hd tl ih =>
    rw [List.foldl_cons]
    exact ih _ (keysNodup_appendAt _ _ _ h)

theorem keysNodup_shuffle (l : List (List Char × Nat)) :
    ((shuffle_function l).map Prod.fst).Nodup :=
  keysNodup_shuffle_foldl l [] (by simp)

theorem mem_iff_assoc {α : Type} (l : List (List Char × α))
    (h : (l.map Prod.fst).Nodup) (k : List Char) (v : α) :
    (k, v) ∈ l ↔ assoc k l = some v := by
  induction l with
  | nil => simp [assoc]
  | cons hd tl ih =>
    obtain ⟨k', v'⟩ := hd
    rw [List.map_cons, List.nodup_cons] at h
    by_cases hkk : k' = k
    · subst hkk
      have hassoc : assoc k' ((k', v') :: tl) = some v' := by simp [assoc]
      rw [hassoc]
      constructor
      · intro hmem
        rcases List.mem_cons.mp hmem with heq | hmem'
        · rw [Prod.mk.injEq] at heq
          rw [heq.2]
        · exact absurd (List.mem_map.mpr ⟨(k', v), hmem', rfl⟩) h.1
      · intro hv
        have hvv : v' = v := Option.some_inj.mp hv
        exact List.mem_cons.mpr (Or.inl (by rw [hvv]))
    · simp only [List.mem_cons, assoc, if_neg hkk]
      rw [← ih h.2]
      constructor
      · rintro (heq | hmem')
        · exact absurd (congrArg Prod.fst heq).symm hkk
        · exact hmem'
      · exact fun hmem' => Or.inr hmem'

theorem assoc_map_reduce (gs : List (List Char × List Nat)) (q : List Char) :
    assoc q (gs.map reduce_function) = (assoc q gs).map List.sum := by
  induction gs with
  | nil => simp [assoc]
  | cons hd tl ih =>
    obtain ⟨k, vs⟩ := hd
    by_cases hkq : k = q <;> simp [assoc, reduce_function, hkq, ih]

theorem keys_map_reduce (gs : List (List Char × List Nat)) :
    (gs.map reduce_function).map Prod.fst = gs.map Prod.fst := by
  rw [List.map_map]
  rfl

theorem valuesOf_mapped (words : List (List Char)) (q : List Char) :
    valuesOf q (words.map map_function) =
      List.replicate
        ((words.filter (fun w => w.map Char.toLower = q)).length) 1 := by
  induction words with
  | nil => simp [valuesOf]
  | cons w ws ih =>
    by_cases hw : w.map Char.toLower = q
    · simp [valuesOf, map_function, hw, List.replicate_succ] at ih ⊢
      exact ih
    · simp [valuesOf, map_function, hw] at ih ⊢
      exact ih

theorem sumVals_appendAt (acc : List (List Char × List Nat))
    (k : List Char) (v : Nat) :
    sumVals (appendAt acc k v) = sumVals acc + v := by
  induction acc with
  | nil => simp [appendAt, sumVals]
  | cons hd tl ih =>
    obtain ⟨k', vs⟩ := hd
    by_cases hk'k : k' = k
    · subst hk'k
      simp [appendAt, sumVals]
      omega
    · simp [appendAt, sumVals, hk'k] at ih ⊢
      omega

theorem sumVals_shuffle_foldl (l : List (List Char × Nat))
    (acc : List (List Char × List Nat)) :
    sumVals (l.foldl (fun acc kv => appendAt acc kv.1 kv.2) acc) =
      sumVals acc + (l.map Prod.snd).sum := by
  induction l generalizing acc with
  | nil => simp
  | cons hd tl ih =>
    rw [List.foldl_cons, ih, sumVals_appendAt]
    simp
    omega

/-! ### Lemmas about whitespace splitting -/

theorem splitWsAux_ne_nil (cs : List Char) :
    ∀ acc : List Char, ∀ w ∈ splitWsAux cs acc, w ≠ [] := by
  induction cs with
  | nil =>
    intro acc w hw
    by_cases hacc : acc = []
    · simp [splitWsAux, hacc] at hw
    · simp only [splitWsAux, if_neg hacc, List.mem_singleton] at hw
      subst hw
      simpa using hacc
  | cons c cs ih =>
    intro acc w hw
    by_cases hsp : isPySpace c
    · simp only [splitWsAux, if_pos hsp, List.mem_append] at hw
      rcases hw with hw | hw
      · by_cases hacc : acc = []
        · simp [hacc] at hw
        · simp only [if_neg hacc, List.mem_singleton] at hw
          subst hw
          simpa using hacc
      · exact ih [] w hw
    · simp only [splitWsAux, if_neg hsp] at hw
      exact ih (c :: acc) w hw

theorem splitWsAux_no_space (cs : List Char) :
    ∀ acc : List Char, (∀ c ∈ acc, isPySpace c = false) →
      ∀ w ∈ splitWsAux cs acc, ∀ c ∈ w, isPySpace c = false := by
  induction cs with
  | nil =>
    intro acc hacc w hw c hc
    by_cases hnil : acc = []
    · simp [splitWsAux, hnil] at hw
    · simp only [splitWsAux, if_neg hnil, List.mem_singleton] at hw
      subst hw
      exact hacc c (List.mem_reverse.mp hc)
  | cons c₀ cs ih =>
    intro acc hacc w hw c hc
    by_cases hsp : isPySpace c₀
    · simp only [splitWsAux, if_pos hsp, List.mem_append] at hw
      rcases hw with hw | hw
      · by_cases hnil : acc = []
        · simp [hnil] at hw
        · simp only [if_neg hnil, List.mem_singleton] at hw
          subst hw
          exact hacc c (List.mem_reverse.mp hc)
      · exact ih [] (by simp) w hw c hc
    · simp only [splitWsAux, if_neg hsp] at hw
      refine ih (c₀ :: acc) ?_ w hw c hc
      intro c' hc'
      rcases List.mem_cons.mp hc' with rfl | hc'
      · simpa using hsp
      · exact hacc c' hc'

theorem flatten_splitWsAux (cs : List Char) :
    ∀ acc : List Char, (splitWsAux cs acc).flatten =
      acc.reverse ++ cs.filter (fun c => !(isPySpace c)) := by
  induction cs with
  | nil =>
    intro acc
    by_cases hacc : acc = [] <;> simp [splitWsAux, hacc]
  | cons c cs ih =>
    intro acc
    by_cases hsp : isPySpace c
    · by_cases hacc : acc = [] <;>
        simp [splitWsAux, hsp, hacc, ih]
    · simp [splitWsAux, hsp, ih (c :: acc)]

/-! ### Membership characterization of the reduced word counts -/

theorem keysNodup_word_counts (l : List (List Char × Nat)) :
    (((shuffle_function l).map reduce_function).map Prod.fst).Nodup := by
  rw [keys_map_reduce]
  exact keysNodup_shuffle l

theorem mem_word_counts_iff (l : List (List Char × Nat)) (k : List Char)
    (v : Nat) :
    (k, v) ∈ (shuffle_function l).map reduce_function ↔
      (valuesOf k l ≠ [] ∧ v = (valuesOf k l).sum) := by
  rw [mem_iff_assoc _ (keysNodup_word_counts l), assoc_map_reduce,
    assoc_shuffle]
  by_cases hvals : valuesOf k l = [] <;> simp [hvals, eq_comm]

theorem sum_replicate_one (n : Nat) : (List.replicate n (1 : Nat)).sum = n := by
  induction n with
  | zero => rfl
  | succ n ih =>
    simp [List.replicate_succ, ih]
    omega

theorem sum_map_one (ws : List (List Char)) :
    (ws.map (fun _ => (1 : Nat))).sum = ws.length := by
  induction ws with
  | nil => rfl
  | cons w ws ih =>
    simp [ih]
    omega

theorem sum_word_counts (l : List (List Char × Nat)) :
    (((shuffle_function l).map reduce_function).map Prod.snd).sum =
      (l.map Prod.snd).sum := by
  have h : (((shuffle_function l).map reduce_function).map Prod.snd).sum =
      sumVals (shuffle_function l) := by
    rw [List.map_map]
    rfl
  rw [h, shuffle_function, sumVals_shuffle_foldl]
  simp [sumVals]

theorem word_counts_perm_inv (l₁ l₂ : List (List Char × Nat))
    (h : l₁.Perm l₂) (k : List Char) (v : Nat) :
    ((k, v) ∈ (shuffle_function l₁).map reduce_function ↔
      (k, v) ∈ (shuffle_function l₂).map reduce_function) := by
  rw [mem_word_counts_iff, mem_word_counts_iff]
  have hperm : (valuesOf k l₁).Perm (valuesOf k l₂) := by
    unfold valuesOf
    exact (h.filter _).map _
  have hlen : (valuesOf k l₁).length = (valuesOf k l₂).length := hperm.length_eq
  rw [← List.length_pos_iff_ne_nil, ← List.length_pos_iff_ne_nil, hlen,
    hperm.sum_eq]

/-- Claim C1: for every input text `T` and every key `k` of the mapping
returned by `map_reduce T`, the stored value equals the number of
case-insensitive occurrences of `k` as a token of `T` after punctuation
stripping and whitespace splitting; and `map_reduce` on the empty text
returns the empty mapping. -/
theorem claim_C1 :
    (∀ (T k : List Char) (v : Nat),
      (k, v) ∈ map_reduce T → v = countOccurs T k) ∧
      map_reduce [] = [] := by
  constructor
  · intro T k v h
    have h' : (k, v) ∈ (shuffle_function
        ((splitWs (remove_punctuation T)).map map_function)).map
          reduce_function := h
    rw [mem_word_counts_iff] at h'
    rw [h'.2, valuesOf_mapped, sum_replicate_one]
    rfl
  · rfl

/-- Witness for claim C1: in the text "The cat sat. The cat ran!" the key
"cat" is counted twice, matching its two case-insensitive occurrences. -/
theorem claim_C1_witness :
    2 = countOccurs (String.toList "The cat sat. The cat ran!")
      (String.toList "cat") :=
  claim_C1.1 (String.toList "The cat sat. The cat ran!")
    (String.toList "cat") 2 (by decide)

/-- Claim C2: for every input text, the values of the returned mapping sum
to the number of whitespace-delimited tokens of the punctuation-stripped
text. -/
theorem claim_C2 (T : List Char) :
    ((map_reduce T).map Prod.snd).sum =
      (splitWs (remove_punctuation T)).length := by
  have h : ((map_reduce T).map Prod.snd).sum =
      ((((splitWs (remove_punctuation T)).map map_function)).map
        Prod.snd).sum := sum_word_counts _
  rw [h, List.map_map]
  exact sum_map_one (splitWs (remove_punctuation T))

/-- Claim C4: the Mapper sends each token `w` to `(w.lower(), 1)`, and the
pipeline strips punctuation from the raw-case text first and lowercases
per-token afterwards: `map_reduce T` is exactly the word count of the
per-token-lowercased token sequence of the punctuation-stripped text. -/
theorem claim_C4 :
    (∀ w : List Char, map_function w = (w.map Char.toLower, 1)) ∧
      ∀ T : List Char,
        map_reduce T = word_counts_of
          ((splitWs (remove_punctuation T)).map (List.map Char.toLower)) := by
  refine ⟨fun w => rfl, fun T => ?_⟩
  show (shuffle_function
      ((splitWs (remove_punctuation T)).map map_function)).map reduce_function
    = _
  rw [word_counts_of, List.map_map]
  rfl

/-- Claim C3: tokenization removes exactly the ASCII-punctuation characters
and splits on whitespace runs: the tokens concatenate to the non-whitespace
characters of the stripped text in order, and every token is non-empty and
contains no whitespace (consecutive punctuation/whitespace collapses into a
single boundary, so no empty tokens are produced). -/
theorem claim_C3 (T : List Char) :
    (∀ c : Char, c ∈ remove_punctuation T ↔ (c ∈ T ∧ isPyPunct c = false)) ∧
      (splitWs (remove_punctuation T)).flatten =
        (remove_punctuation T).filter (fun c => !(isPySpace c)) ∧
      ∀ w ∈ splitWs (remove_punctuation T),
        w ≠ [] ∧ ∀ c ∈ w, isPySpace c = false := by
  refine ⟨?_, ?_, ?_⟩
  · intro c
    simp [remove_punctuation, List.mem_filter]
  · simpa using flatten_splitWsAux (remove_punctuation T) []
  · intro w hw
    exact ⟨splitWsAux_ne_nil _ [] w hw,
      splitWsAux_no_space _ [] (by simp) w hw⟩

/-- Witness for claim C3: in "a,, b!" the token list of the stripped text
contains the non-empty token "a", whose single character is not whitespace. -/
theorem claim_C3_witness :
    (['a'] : List Char) ≠ [] ∧ isPySpace 'a' = false := by
  have h := (claim_C3 (String.toList "a,, b!")).2.2 ['a'] (by decide)
  exact ⟨h.1, h.2 'a' (by decide)⟩

/-- Claim C5: grouping and reduction are order-independent: permuting the
mapped pairs does not change the reduced key-to-total mapping viewed as a set
of key/value pairs. -/
theorem claim_C5 (l₁ l₂ : List (List Char × Nat)) (h : l₁.Perm l₂)
    (k : List Char) (v : Nat) :
    ((k, v) ∈ (shuffle_function l₁).map reduce_function ↔
      (k, v) ∈ (shuffle_function l₂).map reduce_function) :=
  word_counts_perm_inv l₁ l₂ h k v

/-- Witness for claim C5: reducing the shuffled pairs
`[("b",1),("a",1),("a",1)]` and the permutation `[("a",1),("b",1),("a",1)]`
both map "a" to 2. -/
theorem claim_C5_witness :
    (String.toList "a", 2) ∈ (shuffle_function
      [(String.toList "a", 1), (String.toList "b", 1),
        (String.toList "a", 1)]).map reduce_function :=
  (claim_C5
    [(String.toList "b", 1), (String.toList "a", 1), (String.toList "a", 1)]
    [(String.toList "a", 1), (String.toList "b", 1), (String.toList "a", 1)]
    (by decide) (String.toList "a") 2).mp (by decide)

/-- Claim C8: the pipeline is deterministic: `map_reduce` is the pure
composition of tokenize, map, shuffle and reduce, and any two runs that
collect the mapped pairs of the same text in any orders yield the same
ResultMapping as a set of key/value pairs. -/
theorem claim_C8 :
    (∀ T : List Char, map_reduce T =
      (shuffle_function ((splitWs (remove_punctuation T)).map
        map_function)).map reduce_function) ∧
      ∀ (T : List Char) (l₁ l₂ : List (List Char × Nat)),
        l₁.Perm ((splitWs (remove_punctuation T)).map map_function) →
        l₂.Perm ((splitWs (remove_punctuation T)).map map_function) →
        ∀ (k : List Char) (v : Nat),
          ((k, v) ∈ (shuffle_function l₁).map reduce_function ↔
            (k, v) ∈ (shuffle_function l₂).map reduce_function) := by
  refine ⟨fun T => rfl, fun T l₁ l₂ h₁ h₂ k v => ?_⟩
  exact word_counts_perm_inv l₁ l₂ (h₁.trans h₂.symm) k v

/-- Witness for claim C8: two collection orders of the mapped pairs of
"b a a" agree that "a" maps to 2. -/
theorem claim_C8_witness :
    (String.toList "a", 2) ∈ (shuffle_function
      [(String.toList "a", 1), (String.toList "a", 1),
        (String.toList "b", 1)]).map reduce_function :=
  (claim_C8.2 (String.toList "b a a")
    [(String.toList "b", 1), (String.toList "a", 1), (String.toList "a", 1)]
    [(String.toList "a", 1), (String.toList "a", 1), (String.toList "b", 1)]
    (by decide) (by decide) (String.toList "a") 2).mp (by decide)

/-- Claim C6: the top-N selection returns exactly `min n |mapping|` entries,
sorted by count descending, drawn from the mapping's entries with no key
repeated; when the mapping has at most `n` entries it returns all of them. -/
theorem claim_C6 (wc : List (List Char × Nat)) (n : Nat)
    (hkeys : (wc.map Prod.fst).Nodup) :
    (top_words wc n).length = min n wc.length ∧
      (top_words wc n).Pairwise (fun a b => b.2 ≤ a.2) ∧
      (∀ e ∈ top_words wc n, e ∈ wc) ∧
      ((top_words wc n).map Prod.fst).Nodup ∧
      (wc.length ≤ n → ∀ e ∈ wc, e ∈ top_words wc n) := by
  have hsorted : (wc.mergeSort (fun a b => decide (b.2 ≤ a.2))).Pairwise
      (fun a b => decide (b.2 ≤ a.2) = true) :=
    List.sorted_mergeSort
      (fun a b c hab hbc => by
        simp only [decide_eq_true_eq] at hab hbc ⊢
        omega)
      (fun a b => by
        simp only [Bool.or_eq_true, decide_eq_true_eq]
        exact Nat.le_total b.2 a.2) wc
  have hperm := List.mergeSort_perm wc (fun a b => decide (b.2 ≤ a.2))
  refine ⟨?_, ?_, ?_, ?_, ?_⟩
  · rw [top_words, List.length_take, List.length_mergeSort]
  · exact (List.Pairwise.sublist (List.take_sublist n _) hsorted).imp
      (fun h => by simpa using h)
  · intro e he
    exact hperm.mem_iff.mp (List.take_subset n _ he)
  · have hkeys' : ((wc.mergeSort (fun a b => decide (b.2 ≤ a.2))).map
        Prod.fst).Nodup := ((hperm.map Prod.fst).nodup_iff).mpr hkeys
    rw [top_words, List.map_take]
    exact List.Nodup.sublist (List.take_sublist n _) hkeys'
  · intro hlen e he
    rw [top_words, List.take_of_length_le
      (by rw [List.length_mergeSort]; exact hlen)]
    exact hperm.mem_iff.mpr he

/-- Witness for claim C6: on the two-entry mapping a=1, b=2 and n = 1 the
selection has length min 1 2. -/
theorem claim_C6_witness :
    (top_words [(String.toList "a", 1), (String.toList "b", 2)] 1).length =
      min 1 ([(String.toList "a", 1),
        (String.toList "b", 2)] : List (List Char × Nat)).length :=
  (claim_C6 [(String.toList "a", 1), (String.toList "b", 2)] 1 (by decide)).1

/-- Claim C7: retrieval is the only failure path: `get_text` returns `None`
on a raised request exception and on every non-success HTTP status, and
whenever `get_text` yields no text the main block only logs the retrieval
failure — `map_reduce` and `visualize_top_words` are never invoked and no
retry happens. -/
theorem claim_C7 :
    (∀ message : String,
      get_text (HttpOutcome.requestError message) = none) ∧
      (∀ (status : Nat) (body : List Char), 400 ≤ status → status < 600 →
        get_text (HttpOutcome.response status body) = none) ∧
      ∀ outcome : HttpOutcome, get_text outcome = none →
        main_block outcome = MainOutcome.retrievalFailureLogged := by
  refine ⟨fun _ => rfl, ?_, ?_⟩
  · intro status body h4 h6
    have hra : raisesForStatus status = true := by
      simp [raisesForStatus, h4, h6]
    simp [get_text, hra]
  · intro outcome h
    simp [main_block, h]

/-- Witness for claim C7: a 404 response yields no text, and a raised
request exception makes the main block log the failure and stop. -/
theorem claim_C7_witness :
    get_text (HttpOutcome.response 404 (String.toList "Not Found")) = none ∧
      main_block (HttpOutcome.requestError "timeout") =
        MainOutcome.retrievalFailureLogged :=
  ⟨claim_C7.2.1 404 (String.toList "Not Found") (by decide) (by decide),
    claim_C7.2.2 (HttpOutcome.requestError "timeout")
      (claim_C7.1 "timeout")⟩

/-- Claim C9: a successfully fetched empty text is treated like a retrieval
failure: `get_text` returns the empty string, yet the truthiness check in the
main block skips `map_reduce` and visualization and logs the
retrieval-failure message, although `map_reduce` on the empty string would
just return the empty mapping. -/
theorem claim_C9 :
    get_text (HttpOutcome.response 200 []) = some [] ∧
      main_block (HttpOutcome.response 200 []) =
        MainOutcome.retrievalFailureLogged ∧
      map_reduce [] = [] :=
  ⟨rfl, rfl, rfl⟩

/-- Claim C10: `visualize_top_words` is not total on an empty mapping: for
every `top_n`, the two-name unpacking of `zip(*sorted_words)` fails on the
empty sorted list before any chart is rendered. -/
theorem claim_C10 (top_n : Nat) :
    visualize_top_words [] top_n =
      Except.error "ValueError: not enough values to unpack" := by
  simp [visualize_top_words, top_words]

end MapReducer
